import Mathlib

/-!
Formal model of the ordinal-allocation core of the advanced-statefulset
repository (file pkg/apis/apps/v1/helper/helper.go).

Modelling conventions:
* Go `int32` values are carried as integers `ℤ`, and every arithmetic
  operation the source performs at type int32 (the boundary increment,
  the replica subtraction, the candidate addition and the int-to-int32
  conversion) is modelled with explicit two's-complement wrap-around
  (`wrap32`), because Go signed arithmetic wraps by definition and the
  allocator can reach the wrap at in-range inputs.  Comparisons, set
  membership and the int32 loop counter of the active-ordinal loop never
  overflow (that counter stays below the in-range bound), so they carry
  no wrap.
* The candidate loop of CalculateScaleOutPodOrdinal need not terminate in
  the source (its wrapped candidates cycle through the int32 space), so it
  is modelled with an explicit iteration budget: `some l` means the loop
  exited with result `l` within the budget, `none` means it is still
  running after that many iterations.
* Go `sets.Int32` is modelled as `Finset ℤ`; the method `List()` (which
  returns the members in ascending order) is modelled by
  `Finset.sort (· ≤ ·)`.
* The identity object (`metav1.Object`) is modelled by the one capability
  the code uses: a possibly-nil bag of string-keyed string values
  (`MetaObject`).  Go strings are modelled as `List Char`; the bag is an
  association list whose lookup takes the first matching key, which agrees
  with Go map semantics because keys are unique under the operations used.
* The external JSON codec (`encoding/json`) applied to integer arrays is
  modelled concretely: `marshalIntList` prints the canonical form
  `[a,b,c]` exactly as `json.Marshal` does for an `[]int32` slice, and
  `unmarshalIntList` parses that grammar, returning `none` on anything
  malformed, as `json.Unmarshal` returns an error.  (The real decoder also
  tolerates interstitial whitespace and rejects leading zeros; none of the
  verified statements depend on the exact frontier of malformed inputs.)
* The Go for-loops are modelled by folds/recursions over the iterated
  data, with loop state passed explicitly.
-/

/-! ### Decimal digits and the JSON integer-array codec -/

/-- One decimal digit as a character: d with 0 ≤ d ≤ 9 maps to '0'..'9'. -/
def digitChar (d : Nat) : Char := Char.ofNat (48 + d)

/-- Character test: is c one of '0'..'9'. -/
def isDigit (c : Char) : Bool := 48 ≤ c.toNat && c.toNat ≤ 57

/-- Numeric value of a digit character. -/
def digitVal (c : Char) : Nat := c.toNat - 48

/-- Decimal representation of n, most significant digit first, prepended to
acc.  The first argument is fuel; fuel ≥ n makes the recursion complete
(each step divides n by 10), and the definition is structural so that it
evaluates inside the kernel. -/
def natCharsAux : Nat → Nat → List Char → List Char
  | 0, _, acc => acc
  | fuel + 1, n, acc =>
    if n = 0 then acc else natCharsAux fuel (n / 10) (digitChar (n % 10) :: acc)

/-- Decimal representation of a natural number, as strconv prints it. -/
def natRepr (n : Nat) : List Char := if n = 0 then ['0'] else natCharsAux n n []

/-- Decimal representation of an integer, as the Go JSON encoder prints it. -/
def intChars (x : ℤ) : List Char :=
  if x < 0 then '-' :: natRepr x.natAbs else natRepr x.natAbs

/-- Interleave a separator character between chunks (no trailing separator). -/
def joinWith (sep : Char) : List (List Char) → List Char
  | [] => []
  | [x] => x
  | x :: y :: rest => x ++ sep :: joinWith sep (y :: rest)

/-- Model of json.Marshal for an integer slice: the canonical text
`[a,b,c]` with no spaces. -/
def marshalIntList (l : List ℤ) : List Char :=
  '[' :: (joinWith ',' (l.map intChars) ++ [']'])

/-- Split a character list at every occurrence of sep; always returns at
least one (possibly empty) chunk. -/
def splitOnChar (sep : Char) : List Char → List (List Char)
  | [] => [[]]
  | c :: cs =>
    match splitOnChar sep cs with
    | [] => [[]]
    | chunk :: rest => if c = sep then [] :: chunk :: rest else (c :: chunk) :: rest

/-- Parse a run of digit characters extending the accumulator; fails on the
first non-digit. -/
def parseDigitsAcc : List Char → Nat → Option Nat
  | [], acc => some acc
  | c :: cs, acc => if isDigit c then parseDigitsAcc cs (acc * 10 + digitVal c) else none

/-- Parse a whole chunk as a (possibly negative) decimal integer; the chunk
must consist of an optional minus sign followed by at least one digit. -/
def parseIntAll (s : List Char) : Option ℤ :=
  match s with
  | [] => none
  | c :: cs =>
    if c = '-' then
      match cs with
      | [] => none
      | c2 :: cs2 =>
        if isDigit c2 then (parseDigitsAcc cs2 (digitVal c2)).map (fun n => -(n : ℤ))
        else none
    else
      if isDigit c then (parseDigitsAcc cs (digitVal c)).map (fun n => (n : ℤ))
      else none

/-- Parse every chunk as an integer; fails if any chunk is malformed. -/
def parseItems : List (List Char) → Option (List ℤ)
  | [] => some []
  | chunk :: rest =>
    match parseIntAll chunk, parseItems rest with
    | some x, some xs => some (x :: xs)
    | _, _ => none

/-- Model of json.Unmarshal into an integer slice: accepts `[..]` whose
comma-separated items are decimal integers, and returns `none` (the error
case) on anything else. -/
def unmarshalIntList (s : List Char) : Option (List ℤ) :=
  match s with
  | '[' :: rest =>
    if rest.getLast? = some ']' then
      let inner := rest.dropLast
      if inner = [] then some [] else parseItems (splitOnChar ',' inner)
    else none
  | _ => none

/-! ### The identity object and the reservation store accessor -/

/-- The identity object, reduced to the one capability the code uses:
get/set of a possibly-nil bag of string-keyed string values
(GetAnnotations/SetAnnotations in the source). -/
structure MetaObject where
  anns : Option (List (List Char × List Char))
deriving DecidableEq

/-- First-match lookup in the bag, i.e. Go map indexing. -/
def annLookup (k : List Char) : List (List Char × List Char) → Option (List Char)
  | [] => none
  | p :: rest => if p.1 = k then some p.2 else annLookup k rest

/-- Remove every binding of key k, i.e. Go `delete`. -/
def annDelete (k : List Char) : List (List Char × List Char) → List (List Char × List Char)
  | [] => []
  | p :: rest => if p.1 = k then annDelete k rest else p :: annDelete k rest

/-- Go map assignment for key k: afterwards k maps to v and every other
key keeps its value. -/
def annInsert (k v : List Char) (a : List (List Char × List Char)) :
    List (List Char × List Char) :=
  (k, v) :: annDelete k a

/-- The well-known key DeleteSlotsAnn = "delete-slots". -/
def DeleteSlotsAnn : List Char :=
  ['d', 'e', 'l', 'e', 't', 'e', '-', 's', 'l', 'o', 't', 's']

/-- GetDeleteSlots from the source: nil bag, absent key and undecodable
value all yield the empty set; a decoded slice is inserted into a fresh
set (collapsing duplicates). -/
def GetDeleteSlots (set : MetaObject) : Finset ℤ :=
  match set.anns with
  | none => ∅
  | some a =>
    match annLookup DeleteSlotsAnn a with
    | none => ∅
    | some value =>
      match unmarshalIntList value with
      | none => ∅
      | some slice => slice.toFinset

/-- SetDeleteSlots from the source: an empty set deletes the key (a Go
delete on a nil map is a no-op), otherwise the ascending member list is
marshalled and stored, creating the bag if it was nil.  (The source also
threads the json.Marshal error, which cannot occur for integer slices and
is dropped here.) -/
def SetDeleteSlots (set : MetaObject) (deleteSlots : Finset ℤ) : MetaObject :=
  if deleteSlots = ∅ then
    ⟨set.anns.map (fun a => annDelete DeleteSlotsAnn a)⟩
  else
    let b := marshalIntList (deleteSlots.sort (· ≤ ·))
    match set.anns with
    | none => ⟨some [(DeleteSlotsAnn, b)]⟩
    | some a => ⟨some (annInsert DeleteSlotsAnn b a)⟩

/-- AddDeleteSlots from the source: read, union, write back. -/
def AddDeleteSlots (set : MetaObject) (deleteSlots : Finset ℤ) : MetaObject :=
  SetDeleteSlots set (GetDeleteSlots set ∪ deleteSlots)

/-- The value stored under the well-known key, if any (observer used to
state that SetDeleteSlots with an empty set removes the key). -/
def annValue (set : MetaObject) : Option (List Char) :=
  match set.anns with
  | none => none
  | some a => annLookup DeleteSlotsAnn a

/-! ### The ordinal allocator -/

/-- Two's-complement wrap-around of Go int32 arithmetic: the value an
int32 expression holds is the mathematical result reduced into
the interval from -2147483648 to 2147483647. -/
def wrap32 (x : ℤ) : ℤ := (x + 2147483648) % 4294967296 - 2147483648

/-- One iteration of the boundary-resolution loop of
GetMaxReplicaCountAndDeleteSlots: state is (replicaCount, deleteSlotsCopy);
a slot below the count is backfilled (the int32 counter grows, wrapping at
MaxInt32 as Go increments do), otherwise the slot is deleted from the
copy. -/
def scanStep (acc : ℤ × Finset ℤ) (deleteSlot : ℤ) : ℤ × Finset ℤ :=
  if deleteSlot < acc.1 then (wrap32 (acc.1 + 1), acc.2) else (acc.1, acc.2.erase deleteSlot)

/-- GetMaxReplicaCountAndDeleteSlots from the source: fold the loop body
over the ascending member list, starting from the requested replica count
and a copy of the reservation set. -/
def GetMaxReplicaCountAndDeleteSlots (replicas : ℤ) (deleteSlots : Finset ℤ) :
    ℤ × Finset ℤ :=
  (deleteSlots.sort (· ≤ ·)).foldl scanStep (replicas, deleteSlots)

/-- GetPodOrdinalsFromReplicasAndDeleteSlots from the source: all i with
0 ≤ i < maxReplicaCount that are not consumed delete slots. -/
def GetPodOrdinalsFromReplicasAndDeleteSlots (replicas : ℤ) (deleteSlots : Finset ℤ) :
    Finset ℤ :=
  let p := GetMaxReplicaCountAndDeleteSlots replicas deleteSlots
  (Finset.Ico 0 p.1).filter (fun i => i ∉ p.2)

/-- GetPodOrdinals from the source. -/
def GetPodOrdinals (replicas : ℤ) (set : MetaObject) : Finset ℤ :=
  GetPodOrdinalsFromReplicasAndDeleteSlots replicas (GetDeleteSlots set)

/-- The maximum-tracking loop of GetMaxPodOrdinal, over a given ordinal
set: start at -1 and fold max. -/
def GetMaxPodOrdinalFromSlots (replicas : ℤ) (deleteSlots : Finset ℤ) : ℤ :=
  Finset.fold max (-1) id (GetPodOrdinalsFromReplicasAndDeleteSlots replicas deleteSlots)

/-- GetMaxPodOrdinal from the source (the source inlines
GetPodOrdinals; factored here through the slot set, which is exact because
GetDeleteSlots is pure). -/
def GetMaxPodOrdinal (replicas : ℤ) (set : MetaObject) : ℤ :=
  GetMaxPodOrdinalFromSlots replicas (GetDeleteSlots set)

/-- The minimum-tracking loop of GetMinPodOrdinal: start at math.MaxInt32
and fold min. -/
def GetMinPodOrdinalFromSlots (replicas : ℤ) (deleteSlots : Finset ℤ) : ℤ :=
  Finset.fold min 2147483647 id (GetPodOrdinalsFromReplicasAndDeleteSlots replicas deleteSlots)

/-- GetMinPodOrdinal from the source. -/
def GetMinPodOrdinal (replicas : ℤ) (set : MetaObject) : ℤ :=
  GetMinPodOrdinalFromSlots replicas (GetDeleteSlots set)

/-- Analysis companion for the scale-out loop, not itself the source
translation: the ideal overflow-free candidate loop that, starting at the
given candidate and counting up without wrap, skips reserved ordinals and
collects non-reserved ones until `need` of them have been gathered, in
collection order.  Used only to describe the output of the wrapped source
loop in the no-overflow regime. -/
def scaleOutLoop (slots : Finset ℤ) : Nat → ℤ → List ℤ
  | need, candidate =>
    if h : need = 0 then []
    else if hc : candidate ∈ slots then scaleOutLoop slots need (candidate + 1)
    else candidate :: scaleOutLoop slots (need - 1) (candidate + 1)
termination_by need candidate => need + (slots.filter (fun x => candidate ≤ x)).card
decreasing_by
  · have hsub : slots.filter (fun x => candidate + 1 ≤ x) ⊂ slots.filter (fun x => candidate ≤ x) := by
      constructor
      · intro x hx
        rw [Finset.mem_filter] at hx ⊢
        exact ⟨hx.1, by omega⟩
      · intro hcontra
        have hmem : candidate ∈ slots.filter (fun x => candidate ≤ x) :=
          Finset.mem_filter.mpr ⟨hc, by omega⟩
        have := (Finset.mem_filter.mp (hcontra hmem)).2
        omega
    have := Finset.card_lt_card hsub
    omega
  · have hsub : (slots.filter (fun x => candidate + 1 ≤ x)).card ≤
        (slots.filter (fun x => candidate ≤ x)).card := by
      refine Finset.card_le_card ?_
      intro x hx
      rw [Finset.mem_filter] at hx ⊢
      exact ⟨hx.1, by omega⟩
    omega

/-- The candidate loop of CalculateScaleOutPodOrdinal from the source,
with Go int32 semantics: while the collected set has fewer than `need`
members, the examined ordinal is maxOrdinal + int32(i) computed with
int32 wrap-around (`i` itself is a 64-bit loop variable converted down),
reserved or already-collected ordinals are skipped (a set insert of a
present member is a no-op), and fresh ones are appended.  Because wrapped
candidates cycle, the source loop need not terminate; `fuel` is the
iteration budget: `none` means the loop is still running after `fuel`
iterations, `some l` that it exited with the collected list `l` (in
collection order). -/
def scaleOutLoopW (slots : Finset ℤ) (maxOrdinal need : ℤ) :
    Nat → ℤ → List ℤ → Option (List ℤ)
  | 0, _, acc => if (acc.length : ℤ) < need then none else some acc
  | fuel + 1, i, acc =>
    if (acc.length : ℤ) < need then
      if wrap32 (maxOrdinal + wrap32 i) ∈ slots ∨ wrap32 (maxOrdinal + wrap32 i) ∈ acc then
        scaleOutLoopW slots maxOrdinal need fuel (i + 1) acc
      else
        scaleOutLoopW slots maxOrdinal need fuel (i + 1) (acc ++ [wrap32 (maxOrdinal + wrap32 i)])
    else some acc

/-- CalculateScaleOutPodOrdinal from the source, factored through the slot
set: an empty answer when not growing, otherwise the candidate loop
starting at i = 1 with the empty collection, where the needed count is
the int32 difference targetReplicas - currentReplicas (wrapped, as Go
computes it).  `fuel` is the iteration budget of the possibly-divergent
loop. -/
def CalculateScaleOutPodOrdinalFromSlots (currentReplicas targetReplicas : ℤ)
    (slots : Finset ℤ) (fuel : Nat) : Option (List ℤ) :=
  if currentReplicas ≥ targetReplicas then some []
  else
    scaleOutLoopW slots (GetMaxPodOrdinalFromSlots currentReplicas slots)
      (wrap32 (targetReplicas - currentReplicas)) fuel 1 []

/-- CalculateScaleOutPodOrdinal from the source (the source reads the slot
set from the object, directly and via GetMaxPodOrdinal; both reads return
the same pure value). -/
def CalculateScaleOutPodOrdinal (currentReplicas targetReplicas : ℤ)
    (set : MetaObject) (fuel : Nat) : Option (List ℤ) :=
  CalculateScaleOutPodOrdinalFromSlots currentReplicas targetReplicas (GetDeleteSlots set) fuel

/-- Error vocabulary the specification assigns to the allocator. -/
inductive AllocError where
  | invalidArgument
deriving DecidableEq

/-- The allocator functions in the source return plain values and have no
error channel at all; their view in an error monad, translated from the
source signature, is therefore always success.  Used to state the
specification's rejection claim. -/
def GetMaxReplicaCountAndDeleteSlotsE (replicas : ℤ) (deleteSlots : Finset ℤ) :
    Except AllocError (ℤ × Finset ℤ) :=
  Except.ok (GetMaxReplicaCountAndDeleteSlots replicas deleteSlots)

/-- Boundary component of the source's wrapped scan, as a recursion on
the visited list (used to analyse the fold; the second component of the
fold never feeds back into the first). -/
def scanBW : ℤ → List ℤ → ℤ
  | b, [] => b
  | b, r :: rest => if r < b then scanBW (wrap32 (b + 1)) rest else scanBW b rest

/-- The slots the source's wrapped scan drops (those met while at or
above the running boundary), in visit order. -/
def droppedSlotsW : ℤ → List ℤ → List ℤ
  | _, [] => []
  | b, r :: rest =>
    if r < b then droppedSlotsW (wrap32 (b + 1)) rest else r :: droppedSlotsW b rest

/-- Boundary component of the ideal overflow-free scan (analysis
companion, agreeing with scanBW while the boundary stays within int32). -/
def scanB : ℤ → List ℤ → ℤ
  | b, [] => b
  | b, r :: rest => if r < b then scanB (b + 1) rest else scanB b rest

/-- The slots the ideal overflow-free scan drops, in visit order. -/
def droppedSlots : ℤ → List ℤ → List ℤ
  | _, [] => []
  | b, r :: rest => if r < b then droppedSlots (b + 1) rest else r :: droppedSlots b rest

/-- Modelled from the spec, for the refinement claim: the
resolveBoundaryAndConsumed algorithm of section 4.2, iterating the
reservations in ascending order, incrementing the boundary and keeping a
reservation found below it, dropping a reservation found at or above it. -/
def resolveBoundaryAndConsumedSpec : ℤ → Finset ℤ → List ℤ → ℤ × Finset ℤ
  | boundary, consumed, [] => (boundary, consumed)
  | boundary, consumed, r :: rest =>
    if r < boundary then resolveBoundaryAndConsumedSpec (boundary + 1) consumed rest
    else resolveBoundaryAndConsumedSpec boundary (consumed.erase r) rest

/-! ### Codec lemmas: the marshalled form parses back to the same list -/

theorem digitChar_isDigit {d : Nat} (h : d < 10) : isDigit (digitChar d) = true := by
  interval_cases d <;> decide

theorem digitVal_digitChar {d : Nat} (h : d < 10) : digitVal (digitChar d) = d := by
  interval_cases d <;> decide

theorem digitChar_ne_comma {d : Nat} (h : d < 10) : digitChar d ≠ ',' := by
  interval_cases d <;> decide

theorem digitChar_ne_dash {d : Nat} (h : d < 10) : digitChar d ≠ '-' := by
  interval_cases d <;> decide

theorem parseDigitsAcc_map (ds : List Nat) (h : ∀ d ∈ ds, d < 10) (acc : Nat) :
    parseDigitsAcc (ds.map digitChar) acc =
      some (ds.foldl (fun a d => a * 10 + d) acc) := by
  induction ds generalizing acc with
  | nil => rfl
  | cons d t ih =>
    have hd : d < 10 := h d (by simp)
    simp only [List.map_cons, parseDigitsAcc, digitChar_isDigit hd, if_true,
      digitVal_digitChar hd, List.foldl_cons]
    exact ih (fun x hx => h x (by simp [hx])) _

theorem foldl_digits_eq (ds : List Nat) (acc : Nat) :
    ds.foldl (fun a d => a * 10 + d) acc =
      acc * 10 ^ ds.length + Nat.ofDigits 10 ds.reverse := by
  induction ds generalizing acc with
  | nil => simp
  | cons d t ih =>
    simp only [List.foldl_cons, List.length_cons, List.reverse_cons]
    rw [ih, Nat.ofDigits_append]
    simp only [Nat.ofDigits_singleton, List.length_reverse]
    ring

theorem natCharsAux_eq (fuel : Nat) :
    ∀ (n : Nat), n ≤ fuel → ∀ (acc : List Char),
      natCharsAux fuel n acc = ((Nat.digits 10 n).reverse.map digitChar) ++ acc := by
  induction fuel with
  | zero =>
    intro n hn acc
    interval_cases n
    simp [natCharsAux]
  | succ fuel ih =>
    intro n hn acc
    by_cases h0 : n = 0
    · subst h0; simp [natCharsAux]
    · have hdiv : n / 10 < n := Nat.div_lt_self (Nat.pos_of_ne_zero h0) (by norm_num)
      rw [natCharsAux, if_neg h0, ih (n / 10) (by omega)]
      rw [Nat.digits_def' (by norm_num : (1:ℕ) < 10) (Nat.pos_of_ne_zero h0)]
      simp [List.append_assoc]

theorem natRepr_parses (n : Nat) :
    ∃ c cs, natRepr n = c :: cs ∧ isDigit c = true ∧ c ≠ '-' ∧
      parseDigitsAcc cs (digitVal c) = some n := by
  by_cases h0 : n = 0
  · subst h0
    exact ⟨'0', [], rfl, by decide, by decide, by decide⟩
  · have hds : Nat.digits 10 n ≠ [] := Nat.digits_ne_nil_iff_ne_zero.mpr h0
    have hrev : (Nat.digits 10 n).reverse ≠ [] := by
      simpa using hds
    obtain ⟨d, t, ht⟩ := List.exists_cons_of_ne_nil hrev
    have hmem : ∀ x ∈ (Nat.digits 10 n).reverse, x < 10 := by
      intro x hx
      exact Nat.digits_lt_base (by norm_num) (List.mem_reverse.mp hx)
    have hd10 : d < 10 := hmem d (by rw [ht]; simp)
    have hrepr : natRepr n = digitChar d :: t.map digitChar := by
      rw [natRepr, if_neg h0, natCharsAux_eq n n le_rfl, ht]
      simp
    refine ⟨digitChar d, t.map digitChar, hrepr, digitChar_isDigit hd10,
      digitChar_ne_dash hd10, ?_⟩
    have ht10 : ∀ x ∈ t, x < 10 := by
      intro x hx
      exact hmem x (by rw [ht]; simp [hx])
    rw [parseDigitsAcc_map t ht10, digitVal_digitChar hd10]
    congr 1
    have : t.foldl (fun a d => a * 10 + d) d =
        (d :: t).foldl (fun a d => a * 10 + d) 0 := by simp
    rw [this, ← ht, foldl_digits_eq]
    simp [List.reverse_reverse, Nat.ofDigits_digits]

theorem natRepr_chars (n : Nat) :
    ∀ c ∈ natRepr n, ∃ d, d < 10 ∧ c = digitChar d := by
  intro c hc
  by_cases h0 : n = 0
  · subst h0
    simp only [natRepr, if_pos] at hc
    simp only [List.mem_singleton] at hc
    exact ⟨0, by norm_num, by rw [hc]; decide⟩
  · rw [natRepr, if_neg h0, natCharsAux_eq n n le_rfl, List.append_nil] at hc
    obtain ⟨d, hd, rfl⟩ := List.mem_map.mp hc
    exact ⟨d, Nat.digits_lt_base (by norm_num) (List.mem_reverse.mp hd), rfl⟩

theorem parseIntAll_intChars (x : ℤ) : parseIntAll (intChars x) = some x := by
  by_cases hx : x < 0
  · obtain ⟨c, cs, hrepr, hdig, hdash, hparse⟩ := natRepr_parses x.natAbs
    rw [intChars, if_pos hx, hrepr]
    simp [parseIntAll, hdig, hparse, abs_of_nonpos hx.le]
  · obtain ⟨c, cs, hrepr, hdig, hdash, hparse⟩ := natRepr_parses x.natAbs
    rw [intChars, if_neg hx, hrepr]
    simp [parseIntAll, hdash, hdig, hparse, abs_of_nonneg (le_of_not_lt hx)]

theorem intChars_ne_nil (x : ℤ) : intChars x ≠ [] := by
  obtain ⟨c, cs, hrepr, -, -, -⟩ := natRepr_parses x.natAbs
  rw [intChars]
  by_cases hx : x < 0 <;> simp [hx, hrepr]

theorem comma_not_mem_intChars (x : ℤ) : ',' ∉ intChars x := by
  intro hmem
  rw [intChars] at hmem
  have hrepr : ',' ∈ natRepr x.natAbs := by
    by_cases hx : x < 0
    · rw [if_pos hx] at hmem
      rcases List.mem_cons.mp hmem with h | h
      · exact absurd h.symm (by decide)
      · exact h
    · rwa [if_neg hx] at hmem
  obtain ⟨d, hd, hc⟩ := natRepr_chars x.natAbs ',' hrepr
  exact digitChar_ne_comma hd hc.symm

theorem splitOnChar_ne_nil (sep : Char) (l : List Char) : splitOnChar sep l ≠ [] := by
  cases l with
  | nil => simp [splitOnChar]
  | cons c cs =>
    rw [splitOnChar]
    rcases h : splitOnChar sep cs with - | ⟨chunk, rest⟩
    · simp
    · by_cases hc : c = sep <;> simp [hc]

theorem splitOnChar_not_mem (sep : Char) (x : List Char) (h : sep ∉ x) :
    splitOnChar sep x = [x] := by
  induction x with
  | nil => rfl
  | cons c cs ih =>
    have hc : c ≠ sep := fun hh => h (by simp [hh])
    have hcs : splitOnChar sep cs = [cs] := ih (fun hh => h (by simp [hh]))
    rw [splitOnChar, hcs]
    simp [hc]

theorem splitOnChar_append (sep : Char) (x rest : List Char) (h : sep ∉ x) :
    splitOnChar sep (x ++ sep :: rest) = x :: splitOnChar sep rest := by
  induction x with
  | nil =>
    simp only [List.nil_append]
    obtain ⟨chunk, r, hr⟩ := List.exists_cons_of_ne_nil (splitOnChar_ne_nil sep rest)
    rw [splitOnChar, hr]
    simp
  | cons c cs ih =>
    have hc : c ≠ sep := fun hh => h (by simp [hh])
    have hcs : sep ∉ cs := fun hh => h (by simp [hh])
    simp only [List.cons_append]
    rw [splitOnChar, ih hcs]
    simp [hc]

theorem splitOnChar_joinWith (sep : Char) (chunks : List (List Char))
    (hne : chunks ≠ []) (h : ∀ c ∈ chunks, sep ∉ c) :
    splitOnChar sep (joinWith sep chunks) = chunks := by
  induction chunks with
  | nil => exact absurd rfl hne
  | cons x t ih =>
    cases t with
    | nil => exact splitOnChar_not_mem sep x (h x (by simp))
    | cons y t2 =>
      rw [joinWith, splitOnChar_append sep x _ (h x (by simp))]
      rw [ih (by simp) (fun c hc => h c (by simp [hc]))]

theorem parseItems_map (l : List ℤ) : parseItems (l.map intChars) = some l := by
  induction l with
  | nil => rfl
  | cons x t ih => simp [parseItems, parseIntAll_intChars, ih]

theorem joinWith_ne_nil (sep : Char) (x : List Char) (t : List (List Char))
    (hx : x ≠ []) : joinWith sep (x :: t) ≠ [] := by
  cases t with
  | nil => simpa [joinWith]
  | cons y t2 => simp [joinWith]

theorem unmarshal_marshal (l : List ℤ) :
    unmarshalIntList (marshalIntList l) = some l := by
  rw [marshalIntList, unmarshalIntList]
  simp only [List.getLast?_concat, if_pos rfl, List.dropLast_concat]
  cases l with
  | nil => simp [joinWith]
  | cons x t =>
    have hjoin : joinWith ',' ((x :: t).map intChars) ≠ [] := by
      simpa using joinWith_ne_nil ',' (intChars x) (t.map intChars) (intChars_ne_nil x)
    rw [if_neg hjoin]
    rw [splitOnChar_joinWith ',' _ (by simp)
      (by intro c hc; obtain ⟨z, -, rfl⟩ := List.mem_map.mp hc; exact comma_not_mem_intChars z)]
    exact parseItems_map (x :: t)

/-! ### Accessor lemmas -/

theorem annLookup_annDelete (k : List Char) (a : List (List Char × List Char)) :
    annLookup k (annDelete k a) = none := by
  induction a with
  | nil => rfl
  | cons p rest ih =>
    by_cases hp : p.1 = k
    · simp [annDelete, hp, ih]
    · simp [annDelete, annLookup, hp, ih]

theorem annDelete_idem (k : List Char) (a : List (List Char × List Char)) :
    annDelete k (annDelete k a) = annDelete k a := by
  induction a with
  | nil => rfl
  | cons p rest ih =>
    by_cases hp : p.1 = k
    · simp [annDelete, hp, ih]
    · simp [annDelete, hp, ih]

theorem annDelete_cons_self (k v : List Char) (a : List (List Char × List Char)) :
    annDelete k ((k, v) :: a) = annDelete k a := by
  simp [annDelete]

theorem GetDeleteSlots_SetDeleteSlots (set : MetaObject) (S : Finset ℤ) :
    GetDeleteSlots (SetDeleteSlots set S) = S := by
  by_cases hS : S = ∅
  · subst hS
    rw [SetDeleteSlots, if_pos rfl]
    cases h : set.anns with
    | none => simp [GetDeleteSlots, h]
    | some a => simp [GetDeleteSlots, h, annLookup_annDelete]
  · rw [SetDeleteSlots, if_neg hS]
    cases h : set.anns with
    | none => simp [GetDeleteSlots, annLookup, unmarshal_marshal, h]
    | some a => simp [GetDeleteSlots, annInsert, annLookup, unmarshal_marshal, h]

theorem annValue_SetDeleteSlots_empty (set : MetaObject) :
    annValue (SetDeleteSlots set ∅) = none := by
  rw [SetDeleteSlots, if_pos rfl]
  cases h : set.anns with
  | none => simp [annValue, h]
  | some a => simp [annValue, h, annLookup_annDelete]

theorem SetDeleteSlots_SetDeleteSlots (set : MetaObject) (T : Finset ℤ) :
    SetDeleteSlots (SetDeleteSlots set T) T = SetDeleteSlots set T := by
  by_cases hT : T = ∅
  · subst hT
    rw [SetDeleteSlots, if_pos rfl, SetDeleteSlots, if_pos rfl]
    cases h : set.anns with
    | none => simp [h]
    | some a => simp [h, annDelete_idem]
  · cases h : set.anns with
    | none =>
      have hinner : SetDeleteSlots set T =
          ⟨some [(DeleteSlotsAnn, marshalIntList (T.sort (· ≤ ·)))]⟩ := by
        rw [SetDeleteSlots, if_neg hT, h]
      rw [hinner, SetDeleteSlots, if_neg hT]
      simp [annInsert, annDelete]
    | some a =>
      have hinner : SetDeleteSlots set T =
          ⟨some (annInsert DeleteSlotsAnn (marshalIntList (T.sort (· ≤ ·))) a)⟩ := by
        rw [SetDeleteSlots, if_neg hT, h]
      rw [hinner, SetDeleteSlots, if_neg hT]
      simp [annInsert, annDelete_cons_self, annDelete_idem]

/-! ### Scan analysis -/

theorem erase_sdiff_toFinset (K : Finset ℤ) (r : ℤ) (D : List ℤ) :
    K.erase r \ D.toFinset = K \ (r :: D).toFinset := by
  ext x
  simp only [Finset.mem_sdiff, Finset.mem_erase, List.toFinset_cons, Finset.mem_insert,
    List.mem_toFinset]
  tauto

theorem wrap32_eq_self {x : ℤ} (h1 : -2147483648 ≤ x) (h2 : x < 2147483648) :
    wrap32 x = x := by
  unfold wrap32
  rw [Int.emod_eq_of_lt (by omega) (by omega)]
  omega

theorem wrap32_lb (x : ℤ) : -2147483648 ≤ wrap32 x := by
  unfold wrap32
  have := Int.emod_nonneg (x + 2147483648) (by norm_num : (4294967296 : ℤ) ≠ 0)
  omega

theorem wrap32_ub (x : ℤ) : wrap32 x < 2147483648 := by
  unfold wrap32
  have := Int.emod_lt_of_pos (x + 2147483648) (by norm_num : (0 : ℤ) < 4294967296)
  omega

theorem foldl_scanStep_eq (l : List ℤ) : ∀ (b : ℤ) (K : Finset ℤ),
    l.foldl scanStep (b, K) = (scanBW b l, K \ (droppedSlotsW b l).toFinset) := by
  induction l with
  | nil => intro b K; simp [scanBW, droppedSlotsW]
  | cons r t ih =>
    intro b K
    by_cases hr : r < b
    · simp only [List.foldl_cons, scanStep, hr, if_pos, scanBW, droppedSlotsW, if_true]
      exact ih (wrap32 (b + 1)) K
    · simp only [List.foldl_cons, scanStep, hr, if_false, scanBW, droppedSlotsW]
      rw [ih b (K.erase r), erase_sdiff_toFinset]

theorem scanW_bridge (l : List ℤ) : ∀ b : ℤ, -2147483648 ≤ b →
    b + l.length ≤ 2147483647 →
    scanBW b l = scanB b l ∧ droppedSlotsW b l = droppedSlots b l := by
  induction l with
  | nil => intro b _ _; exact ⟨rfl, rfl⟩
  | cons r t ih =>
    intro b hlb hub
    simp only [List.length_cons] at hub
    push_cast at hub
    by_cases hr : r < b
    · have hw : wrap32 (b + 1) = b + 1 := wrap32_eq_self (by omega) (by omega)
      have iht := ih (b + 1) (by omega) (by omega)
      simp only [scanBW, scanB, droppedSlotsW, droppedSlots, hr, if_pos, if_true, hw]
      exact iht
    · have iht := ih b hlb (by omega)
      simp only [scanBW, scanB, droppedSlotsW, droppedSlots, hr, if_false]
      exact ⟨iht.1, by rw [iht.2]⟩

theorem scan_frozenW (l : List ℤ) : ∀ b : ℤ, (∀ x ∈ l, b ≤ x) →
    scanBW b l = b ∧ droppedSlotsW b l = l := by
  induction l with
  | nil => intro b _; exact ⟨rfl, rfl⟩
  | cons r t ih =>
    intro b h
    have hr : ¬r < b := by
      have := h r (by simp)
      omega
    have ht := ih b (fun x hx => h x (by simp [hx]))
    simp only [scanBW, droppedSlotsW, hr, if_false]
    exact ⟨ht.1, by rw [ht.2]⟩

theorem resolveSpec_eq (l : List ℤ) : ∀ (b : ℤ) (K : Finset ℤ),
    resolveBoundaryAndConsumedSpec b K l = (scanB b l, K \ (droppedSlots b l).toFinset) := by
  induction l with
  | nil => intro b K; simp [resolveBoundaryAndConsumedSpec, scanB, droppedSlots]
  | cons r t ih =>
    intro b K
    by_cases hr : r < b
    · simp only [resolveBoundaryAndConsumedSpec, hr, if_pos, scanB, droppedSlots, if_true]
      exact ih (b + 1) K
    · simp only [resolveBoundaryAndConsumedSpec, hr, if_false, scanB, droppedSlots]
      rw [ih b (K.erase r), erase_sdiff_toFinset]

theorem scanB_mono (l : List ℤ) : ∀ (b1 b2 : ℤ), b1 ≤ b2 → scanB b1 l ≤ scanB b2 l := by
  induction l with
  | nil => intro b1 b2 h; simpa [scanB]
  | cons r t ih =>
    intro b1 b2 h
    by_cases h1 : r < b1
    · have h2 : r < b2 := by omega
      simp only [scanB, h1, h2, if_true, if_pos]
      exact ih (b1 + 1) (b2 + 1) (by omega)
    · by_cases h2 : r < b2
      · simp only [scanB, h1, h2, if_true, if_false, if_pos]
        exact ih b1 (b2 + 1) (by omega)
      · simp only [scanB, h1, h2, if_false]
        exact ih b1 b2 h

theorem le_scanB (l : List ℤ) : ∀ b : ℤ, b ≤ scanB b l := by
  induction l with
  | nil => intro b; simp [scanB]
  | cons r t ih =>
    intro b
    by_cases hr : r < b
    · simp only [scanB, hr, if_pos, if_true]
      have := ih (b + 1)
      omega
    · simp only [scanB, hr, if_false]
      exact ih b

theorem scanB_le_add (l : List ℤ) : ∀ b : ℤ, scanB b l ≤ b + l.length := by
  induction l with
  | nil => intro b; simp [scanB]
  | cons r t ih =>
    intro b
    by_cases hr : r < b
    · simp only [scanB, hr, if_pos, if_true, List.length_cons]
      have := ih (b + 1)
      push_cast
      omega
    · simp only [scanB, hr, if_false, List.length_cons]
      have := ih b
      push_cast
      omega

theorem scanB_append (xs ys : List ℤ) : ∀ b : ℤ,
    scanB b (xs ++ ys) = scanB (scanB b xs) ys := by
  induction xs with
  | nil => intro b; simp [scanB]
  | cons r t ih =>
    intro b
    by_cases hr : r < b
    · simp only [List.cons_append, scanB, hr, if_pos, if_true]
      exact ih (b + 1)
    · simp only [List.cons_append, scanB, hr, if_false]
      exact ih b

theorem droppedSlots_append (xs ys : List ℤ) : ∀ b : ℤ,
    droppedSlots b (xs ++ ys) = droppedSlots b xs ++ droppedSlots (scanB b xs) ys := by
  induction xs with
  | nil => intro b; simp [scanB, droppedSlots]
  | cons r t ih =>
    intro b
    by_cases hr : r < b
    · simp only [List.cons_append, scanB, droppedSlots, hr, if_pos, if_true]
      exact ih (b + 1)
    · simp only [List.cons_append, scanB, droppedSlots, hr, if_false, List.append_eq]
      rw [ih b]

theorem scan_frozen (l : List ℤ) : ∀ b : ℤ, (∀ x ∈ l, b ≤ x) →
    scanB b l = b ∧ droppedSlots b l = l := by
  induction l with
  | nil => intro b _; exact ⟨rfl, rfl⟩
  | cons r t ih =>
    intro b h
    have hr : ¬r < b := by
      have := h r (by simp)
      omega
    have ht := ih b (fun x hx => h x (by simp [hx]))
    simp only [scanB, droppedSlots, hr, if_false]
    exact ⟨ht.1, by rw [ht.2]⟩

theorem scan_split (l : List ℤ) (hs : l.Sorted (· < ·)) : ∀ b : ℤ,
    ∃ l1 l2 : List ℤ, l = l1 ++ l2 ∧
      scanB b l1 = b + l1.length ∧ droppedSlots b l1 = [] ∧
      scanB b l = b + l1.length ∧ droppedSlots b l = l2 ∧
      (∀ r ∈ l1, r < b + l1.length) ∧ (∀ r ∈ l2, b + l1.length ≤ r) := by
  induction l with
  | nil =>
    intro b
    exact ⟨[], [], rfl, by simp [scanB], rfl, by simp [scanB], rfl, by simp, by simp⟩
  | cons r t ih =>
    intro b
    rw [List.sorted_cons] at hs
    obtain ⟨hr_lt, ht⟩ := hs
    by_cases hr : r < b
    · obtain ⟨l1, l2, happ, hsc1, hdr1, hsc, hdr, hb1, hb2⟩ := ih ht (b + 1)
      refine ⟨r :: l1, l2, by rw [happ, List.cons_append], ?_, ?_, ?_, ?_, ?_, ?_⟩
      · simp only [scanB, hr, if_pos, if_true, List.length_cons]
        rw [hsc1]; push_cast; ring
      · simp only [droppedSlots, hr, if_pos, if_true]
        exact hdr1
      · simp only [scanB, hr, if_pos, if_true, List.length_cons]
        rw [happ] at hsc ⊢
        rw [hsc]; push_cast; ring
      · simp only [droppedSlots, hr, if_pos, if_true]
        rw [happ] at hdr ⊢
        exact hdr
      · intro x hx
        rcases List.mem_cons.mp hx with h | h
        · subst h
          simp only [List.length_cons]
          push_cast
          omega
        · have := hb1 x h
          simp only [List.length_cons]
          push_cast
          omega
      · intro x hx
        have := hb2 x hx
        simp only [List.length_cons]
        push_cast
        omega
    · have hall : ∀ x ∈ r :: t, b ≤ x := by
        intro x hx
        rcases List.mem_cons.mp hx with h | h
        · omega
        · have := hr_lt x h
          omega
      obtain ⟨hsc, hdr⟩ := scan_frozen (r :: t) b hall
      exact ⟨[], r :: t, rfl, by simp [scanB], rfl, by simpa using hsc, by simpa using hdr,
        by simp, by simpa using hall⟩

theorem GetMax_eq (d : ℤ) (R : Finset ℤ) :
    GetMaxReplicaCountAndDeleteSlots d R =
      (scanBW d (R.sort (· ≤ ·)), R \ (droppedSlotsW d (R.sort (· ≤ ·))).toFinset) :=
  foldl_scanStep_eq _ _ _

/-- Under the no-overflow bound the source's wrapped scan and the ideal
scan of a reservation set agree: the boundary can grow by at most one per
member. -/
theorem GetMax_eq_ideal (d : ℤ) (R : Finset ℤ) (h1 : -2147483648 ≤ d)
    (h2 : d + R.card ≤ 2147483647) :
    GetMaxReplicaCountAndDeleteSlots d R =
      (scanB d (R.sort (· ≤ ·)), R \ (droppedSlots d (R.sort (· ≤ ·))).toFinset) := by
  have hb := scanW_bridge (R.sort (· ≤ ·)) d h1 (by rw [Finset.length_sort]; omega)
  rw [GetMax_eq, hb.1, hb.2]

theorem sdiff_toFinset_right (R : Finset ℤ) (l1 l2 : List ℤ)
    (hsort : R.sort (· ≤ ·) = l1 ++ l2) :
    R \ l2.toFinset = l1.toFinset := by
  have hnd : (l1 ++ l2).Nodup := hsort ▸ R.sort_nodup (· ≤ ·)
  have hdisj := (List.nodup_append.mp hnd).2.2
  ext x
  have hx : x ∈ R ↔ x ∈ l1 ∨ x ∈ l2 := by
    rw [← Finset.mem_sort (α := ℤ) (· ≤ ·), hsort]
    simp
  simp only [Finset.mem_sdiff, List.mem_toFinset, hx]
  constructor
  · rintro ⟨h | h, hn⟩
    · exact h
    · exact absurd h hn
  · intro h
    exact ⟨Or.inl h, fun hc => hdisj h hc⟩

theorem sort_eq_of_sorted (s : Finset ℤ) (l : List ℤ)
    (h1 : List.Sorted (· < ·) l) (h2 : l.toFinset = s) : s.sort (· ≤ ·) = l := by
  have hnd : l.Nodup := h1.nodup
  refine List.eq_of_perm_of_sorted ?_ (Finset.sort_sorted (· ≤ ·) s) (h1.imp le_of_lt)
  refine (List.perm_ext_iff_of_nodup (s.sort_nodup (· ≤ ·)) hnd).mpr ?_
  intro a
  rw [Finset.mem_sort, ← h2, List.mem_toFinset]

/-! ### Scale-out loop analysis -/

theorem scaleOutLoop_spec (slots : Finset ℤ) (need : Nat) (cand : ℤ) :
    (scaleOutLoop slots need cand).length = need ∧
    List.Sorted (· < ·) (scaleOutLoop slots need cand) ∧
    ∀ x ∈ scaleOutLoop slots need cand,
      cand ≤ x ∧ x ∉ slots ∧
        x < cand + need + ((slots.filter (fun y => cand ≤ y)).card : ℤ) := by
  induction need, cand using scaleOutLoop.induct slots with
  | case1 cand =>
    rw [scaleOutLoop]
    simp
  | case2 need cand h hc ih =>
    rw [scaleOutLoop]
    simp only [dif_neg h, dif_pos hc]
    obtain ⟨ihlen, ihsort, ihmem⟩ := ih
    have hcard : (slots.filter (fun y => cand ≤ y)).card =
        (slots.filter (fun y => cand + 1 ≤ y)).card + 1 := by
      have hins : slots.filter (fun y => cand ≤ y) =
          insert cand (slots.filter (fun y => cand + 1 ≤ y)) := by
        ext y
        simp only [Finset.mem_filter, Finset.mem_insert]
        constructor
        · rintro ⟨hy, hle⟩
          by_cases hyc : y = cand
          · exact Or.inl hyc
          · exact Or.inr ⟨hy, by omega⟩
        · rintro (rfl | ⟨hy, hle⟩)
          · exact ⟨hc, le_refl _⟩
          · exact ⟨hy, by omega⟩
      rw [hins, Finset.card_insert_of_not_mem
        (fun hmem => absurd (Finset.mem_filter.mp hmem).2 (by omega))]
    refine ⟨ihlen, ihsort, ?_⟩
    intro x hx
    obtain ⟨h1, h2, h3⟩ := ihmem x hx
    refine ⟨by omega, h2, ?_⟩
    rw [hcard]
    push_cast
    omega
  | case3 need cand h hc ih =>
    rw [scaleOutLoop]
    simp only [dif_neg h, dif_neg hc]
    obtain ⟨ihlen, ihsort, ihmem⟩ := ih
    have hcard : (slots.filter (fun y => cand + 1 ≤ y)).card ≤
        (slots.filter (fun y => cand ≤ y)).card :=
      Finset.card_le_card (fun y hy => by
        rw [Finset.mem_filter] at hy ⊢
        exact ⟨hy.1, by omega⟩)
    refine ⟨?_, ?_, ?_⟩
    · simp only [List.length_cons, ihlen]
      omega
    · rw [List.sorted_cons]
      refine ⟨?_, ihsort⟩
      intro x hx
      have := (ihmem x hx).1
      omega
    · intro x hx
      rcases List.mem_cons.mp hx with hx1 | hx1
    
      · subst hx1
        refine ⟨le_refl _, hc, ?_⟩
        have hcpos : (0:ℤ) ≤ ((slots.filter (fun y => x ≤ y)).card : ℤ) := by positivity
        omega
      · obtain ⟨h1, h2, h3⟩ := ihmem x hx1
        refine ⟨by omega, h2, ?_⟩
        have hneed : 1 ≤ need := Nat.one_le_iff_ne_zero.mpr h
        omega

theorem scaleOutLoop_zero (slots : Finset ℤ) (cand : ℤ) :
    scaleOutLoop slots 0 cand = [] := by
  rw [scaleOutLoop]
  simp

theorem scaleOutLoopW_exit (slots : Finset ℤ) (maxOrdinal need : ℤ) (i : ℤ)
    (acc : List ℤ) (fuel : Nat) (hcond : ¬((acc.length : ℤ) < need)) :
    scaleOutLoopW slots maxOrdinal need fuel i acc = some acc := by
  cases fuel with
  | zero => rw [scaleOutLoopW, if_neg hcond]
  | succ f => rw [scaleOutLoopW, if_neg hcond]

theorem neg_one_le_GetMaxPodOrdinalFromSlots (replicas : ℤ) (slots : Finset ℤ) :
    -1 ≤ GetMaxPodOrdinalFromSlots replicas slots := by
  unfold GetMaxPodOrdinalFromSlots
  exact (Finset.le_fold_max (-1)).mpr (Or.inl le_rfl)

/-- In the no-overflow regime the wrapped candidate loop runs exactly like
the ideal loop: at position i with collected list acc (all elements below
the current candidate maxOrdinal + i), with every future candidate and
the loop counter staying inside int32 and enough fuel for the remaining
iterations, it returns acc extended by the ideal loop's output. -/
theorem scaleOutLoopW_bridge (slots : Finset ℤ) (maxOrdinal need : ℤ) :
    ∀ (m j : Nat) (i : ℤ) (acc : List ℤ) (fuel : Nat),
      j + (slots.filter (fun y => maxOrdinal + i ≤ y)).card ≤ m →
      1 ≤ i →
      (acc.length : ℤ) + j = need →
      (∀ x ∈ acc, x < maxOrdinal + i) →
      -2147483648 ≤ maxOrdinal + i →
      i + ((j : ℤ) + ((slots.filter (fun y => maxOrdinal + i ≤ y)).card : ℤ)) ≤ 2147483648 →
      maxOrdinal + i + ((j : ℤ) + ((slots.filter (fun y => maxOrdinal + i ≤ y)).card : ℤ)) ≤
        2147483648 →
      j + (slots.filter (fun y => maxOrdinal + i ≤ y)).card ≤ fuel →
      scaleOutLoopW slots maxOrdinal need fuel i acc =
        some (acc ++ scaleOutLoop slots j (maxOrdinal + i)) := by
  intro m
  induction m with
  | zero =>
    intro j i acc fuel hm h1i hlen hacc hlow hiZ hcZ hfuel
    have hj : j = 0 := by omega
    subst hj
    rw [scaleOutLoop_zero, List.append_nil]
    exact scaleOutLoopW_exit slots maxOrdinal need i acc fuel (by omega)
  | succ m IH =>
    intro j i acc fuel hm h1i hlen hacc hlow hiZ hcZ hfuel
    by_cases hj : j = 0
    · subst hj
      rw [scaleOutLoop_zero, List.append_nil]
      exact scaleOutLoopW_exit slots maxOrdinal need i acc fuel (by omega)
    · have hjpos : 1 ≤ j := Nat.one_le_iff_ne_zero.mpr hj
      have hcond : (acc.length : ℤ) < need := by omega
      have hfuel1 : 1 ≤ fuel := by omega
      obtain ⟨f, rfl⟩ : ∃ f, fuel = f + 1 := ⟨fuel - 1, by omega⟩
      have hiid : wrap32 i = i := wrap32_eq_self (by omega) (by omega)
      have hcid : wrap32 (maxOrdinal + i) = maxOrdinal + i := wrap32_eq_self hlow (by omega)
      rw [scaleOutLoopW, if_pos hcond, hiid, hcid]
      by_cases hmem : maxOrdinal + i ∈ slots
      · have hins : slots.filter (fun y => maxOrdinal + i ≤ y) =
            insert (maxOrdinal + i) (slots.filter (fun y => maxOrdinal + (i + 1) ≤ y)) := by
          ext y
          simp only [Finset.mem_filter, Finset.mem_insert]
          constructor
          · rintro ⟨hy, hle⟩
            by_cases hyc : y = maxOrdinal + i
            · exact Or.inl hyc
            · exact Or.inr ⟨hy, by omega⟩
          · rintro (rfl | ⟨hy, hle⟩)
            · exact ⟨hmem, le_refl _⟩
            · exact ⟨hy, by omega⟩
        have hcards : (slots.filter (fun y => maxOrdinal + i ≤ y)).card =
            (slots.filter (fun y => maxOrdinal + (i + 1) ≤ y)).card + 1 := by
          rw [hins, Finset.card_insert_of_not_mem
            (fun hmem2 => absurd (Finset.mem_filter.mp hmem2).2 (by omega))]
        rw [if_pos (Or.inl hmem)]
        have harg : maxOrdinal + i + 1 = maxOrdinal + (i + 1) := by ring
        have hstep : scaleOutLoop slots j (maxOrdinal + i) =
            scaleOutLoop slots j (maxOrdinal + (i + 1)) := by
          rw [scaleOutLoop, dif_neg hj, dif_pos hmem, harg]
        rw [hstep]
        exact IH j (i + 1) acc f (by omega) (by omega) hlen
          (fun x hx => by have := hacc x hx; omega)
          (by omega) (by omega) (by omega) (by omega)
      · have hnotacc : maxOrdinal + i ∉ acc := fun hc => lt_irrefl _ (hacc _ hc)
        rw [if_neg (by push_neg; exact ⟨hmem, hnotacc⟩)]
        have hsubcard : (slots.filter (fun y => maxOrdinal + (i + 1) ≤ y)).card ≤
            (slots.filter (fun y => maxOrdinal + i ≤ y)).card :=
          Finset.card_le_card (fun y hy => by
            rw [Finset.mem_filter] at hy ⊢
            exact ⟨hy.1, by omega⟩)
        obtain ⟨jj, rfl⟩ : ∃ jj, j = jj + 1 := ⟨j - 1, by omega⟩
        have harg : maxOrdinal + i + 1 = maxOrdinal + (i + 1) := by ring
        have hstep : scaleOutLoop slots (jj + 1) (maxOrdinal + i) =
            (maxOrdinal + i) :: scaleOutLoop slots jj (maxOrdinal + (i + 1)) := by
          rw [scaleOutLoop, dif_neg hj, dif_neg hmem, harg]
          simp
        rw [hstep]
        have hrec := IH jj (i + 1) (acc ++ [maxOrdinal + i]) f (by omega) (by omega)
          (by
            simp only [List.length_append, List.length_singleton]
            push_cast
            push_cast at hlen
            omega)
          (by
            intro x hx
            rcases List.mem_append.mp hx with hx1 | hx1
            · have := hacc x hx1
              omega
            · have hx2 : x = maxOrdinal + i := by simpa using hx1
              omega)
          (by omega) (by omega) (by omega) (by omega)
        rw [hrec]
        simp [List.append_assoc]

/-- If every int32 value other than 0 is reserved, the wrapped candidate
loop hunting for two fresh ordinals never finishes: whatever it has
collected is contained in the single free value 0, so the needed count 2
is never reached within any budget. -/
theorem scaleOutLoopW_starved (maxOrdinal : ℤ) :
    ∀ (fuel : Nat) (i : ℤ) (acc : List ℤ),
      acc.length ≤ 1 → (∀ x ∈ acc, x = 0) →
      scaleOutLoopW ((Finset.Ico (-2147483648 : ℤ) 2147483648).erase 0) maxOrdinal 2
        fuel i acc = none := by
  intro fuel
  induction fuel with
  | zero =>
    intro i acc hlen hzero
    rw [scaleOutLoopW, if_pos (by omega)]
  | succ f ih =>
    intro i acc hlen hzero
    rw [scaleOutLoopW, if_pos (by omega)]
    by_cases hm : wrap32 (maxOrdinal + wrap32 i) ∈
        (Finset.Ico (-2147483648 : ℤ) 2147483648).erase 0 ∨
        wrap32 (maxOrdinal + wrap32 i) ∈ acc
    · rw [if_pos hm]
      exact ih (i + 1) acc hlen hzero
    · rw [if_neg hm]
      push_neg at hm
      have he0 : wrap32 (maxOrdinal + wrap32 i) = 0 := by
        have hrange : wrap32 (maxOrdinal + wrap32 i) ∈
            Finset.Ico (-2147483648 : ℤ) 2147483648 :=
          Finset.mem_Ico.mpr ⟨wrap32_lb _, wrap32_ub _⟩
        by_contra hne
        exact hm.1 (Finset.mem_erase.mpr ⟨hne, hrange⟩)
      have hacc0 : acc = [] := by
        cases acc with
        | nil => rfl
        | cons y ys =>
          have hy := hzero y (by simp)
          exact absurd (by rw [he0, ← hy]; simp : wrap32 (maxOrdinal + wrap32 i) ∈ y :: ys)
            hm.2
      subst hacc0
      rw [he0]
      exact ih (i + 1) [0] (by simp) (by intro x hx; simpa using hx)

/-! ### Concrete scenario computations (shared helpers) -/

theorem sort_pair_24 : ({2, 4} : Finset ℤ).sort (· ≤ ·) = [2, 4] :=
  sort_eq_of_sorted _ _ (by decide) (by decide)

theorem scenarioB_pair : GetMaxReplicaCountAndDeleteSlots 3 {2, 4} = (4, {2}) := by
  unfold GetMaxReplicaCountAndDeleteSlots
  rw [sort_pair_24]
  decide

theorem scenarioB_active : GetPodOrdinalsFromReplicasAndDeleteSlots 3 {2, 4} = {0, 1, 3} := by
  unfold GetPodOrdinalsFromReplicasAndDeleteSlots
  rw [scenarioB_pair]
  decide

theorem scenarioC_maxOrdinal : GetMaxPodOrdinalFromSlots 3 {2, 4} = 3 := by
  unfold GetMaxPodOrdinalFromSlots
  rw [scenarioB_active]
  decide

theorem scenarioC_scaleOut :
    CalculateScaleOutPodOrdinalFromSlots 3 5 {2, 4} 4 = some [5, 6] := by
  unfold CalculateScaleOutPodOrdinalFromSlots
  rw [if_neg (by norm_num), scenarioC_maxOrdinal]
  decide

theorem sort_single_0 : ({0} : Finset ℤ).sort (· ≤ ·) = [0] :=
  sort_eq_of_sorted _ _ (by decide) (by decide)

theorem sort_triple_015 : ({0, 1, 5} : Finset ℤ).sort (· ≤ ·) = [0, 1, 5] :=
  sort_eq_of_sorted _ _ (by decide) (by decide)

theorem wrap_boundary_pair :
    GetMaxReplicaCountAndDeleteSlots 2147483647 {0} = (-2147483648, {0}) := by
  unfold GetMaxReplicaCountAndDeleteSlots
  rw [sort_single_0]
  decide

theorem wrap_boundary_pair_pred :
    GetMaxReplicaCountAndDeleteSlots 2147483646 {0} = (2147483647, {0}) := by
  unfold GetMaxReplicaCountAndDeleteSlots
  rw [sort_single_0]
  decide

theorem wrap_boundary_active :
    GetPodOrdinalsFromReplicasAndDeleteSlots 2147483647 {0} = ∅ := by
  unfold GetPodOrdinalsFromReplicasAndDeleteSlots
  rw [wrap_boundary_pair]
  show (Finset.Ico (0 : ℤ) (-2147483648)).filter (fun i => i ∉ ({0} : Finset ℤ)) = ∅
  rw [Finset.Ico_eq_empty (by omega), Finset.filter_empty]

theorem sort_single_neg2 : ({(-2 : ℤ)} : Finset ℤ).sort (· ≤ ·) = [-2] :=
  sort_eq_of_sorted _ _ (by decide) (by decide)

theorem negative_input_pair :
    GetMaxReplicaCountAndDeleteSlots (-1) {(-2 : ℤ)} = (0, {(-2 : ℤ)}) := by
  unfold GetMaxReplicaCountAndDeleteSlots
  rw [sort_single_neg2]
  decide

/-! ### Claim theorems -/

/-- Counterexample for C1 as stated: at desired cardinality MaxInt32 with
the single non-negative reservation 0 (inside the claim's hypotheses), the
int32 boundary increment wraps to MinInt32 and the active ordinal set is
empty, not of size d. -/
theorem C1_counterexample :
    (0 : ℤ) ≤ 2147483647 ∧ (∀ r ∈ ({0} : Finset ℤ), (0 : ℤ) ≤ r) ∧
    GetPodOrdinalsFromReplicasAndDeleteSlots 2147483647 {0} = ∅ ∧
    ¬(((GetPodOrdinalsFromReplicasAndDeleteSlots 2147483647 {0}).card : ℤ) = 2147483647) := by
  refine ⟨by norm_num, by decide, wrap_boundary_active, ?_⟩
  rw [wrap_boundary_active]
  decide

/-- Claim C1 (amended): for every desired cardinality d ≥ 0 and every
finite reservation set R of non-negative ordinals, provided the boundary
cannot overflow int32 (d + the number of reservations stays at most
MaxInt32), the active ordinal set has exactly d elements. -/
theorem C1_active_set_cardinality (d : ℤ) (R : Finset ℤ) (hd : 0 ≤ d)
    (hR : ∀ r ∈ R, 0 ≤ r) (hB : d + R.card ≤ 2147483647) :
    ((GetPodOrdinalsFromReplicasAndDeleteSlots d R).card : ℤ) = d := by
  obtain ⟨l1, l2, happ, hsc1, hdr1, hsc, hdr, hb1, hb2⟩ :=
    scan_split (R.sort (· ≤ ·)) (Finset.sort_sorted_lt R) d
  have hpair := GetMax_eq_ideal d R (by omega) hB
  rw [hsc, hdr, sdiff_toFinset_right R l1 l2 happ] at hpair
  have hnd : l1.Nodup := (happ ▸ R.sort_nodup (· ≤ ·)).of_append_left
  have hact : GetPodOrdinalsFromReplicasAndDeleteSlots d R =
      (Finset.Ico 0 (d + l1.length)).filter (fun i => i ∉ l1.toFinset) := by
    unfold GetPodOrdinalsFromReplicasAndDeleteSlots
    rw [hpair]
  rw [hact, ← Finset.sdiff_eq_filter]
  have hsub : l1.toFinset ⊆ Finset.Ico 0 (d + l1.length) := by
    intro x hx
    rw [List.mem_toFinset] at hx
    have hxR : x ∈ R := by
      rw [← Finset.mem_sort (α := ℤ) (· ≤ ·), happ]
      exact List.mem_append.mpr (Or.inl hx)
    exact Finset.mem_Ico.mpr ⟨hR x hxR, hb1 x hx⟩
  rw [Finset.card_sdiff hsub, Int.card_Ico, List.toFinset_card_of_nodup hnd]
  have hcard : l1.toFinset.card ≤ (Finset.Ico 0 (d + (l1.length : ℤ))).card :=
    Finset.card_le_card hsub
  rw [Int.card_Ico, List.toFinset_card_of_nodup hnd] at hcard
  omega

/-- Witness for the amended C1 at d = 3, R as in the worked example. -/
theorem C1_witness :
    (0 : ℤ) ≤ 3 ∧ (∀ r ∈ ({2, 4} : Finset ℤ), (0 : ℤ) ≤ r) ∧
    ((GetPodOrdinalsFromReplicasAndDeleteSlots 3 {2, 4}).card : ℤ) = 3 :=
  ⟨by norm_num, by decide,
   C1_active_set_cardinality 3 {2, 4} (by norm_num) (by decide) (by decide)⟩

/-- Counterexample for C2's refinement conjunct as stated: at desired
cardinality MaxInt32 with reservation 0, the program's wrapped scan
returns boundary MinInt32 while the spec's scan (which increments without
wrap) returns 2147483648, so the program does not implement the spec scan
on all inputs. -/
theorem C2_counterexample :
    GetMaxReplicaCountAndDeleteSlots 2147483647 {0} = (-2147483648, {0}) ∧
    resolveBoundaryAndConsumedSpec 2147483647 {0} (({0} : Finset ℤ).sort (· ≤ ·)) =
      (2147483648, {0}) ∧
    GetMaxReplicaCountAndDeleteSlots 2147483647 {0} ≠
      resolveBoundaryAndConsumedSpec 2147483647 {0} (({0} : Finset ℤ).sort (· ≤ ·)) := by
  refine ⟨wrap_boundary_pair, ?_, ?_⟩
  · rw [sort_single_0]
    decide
  · rw [wrap_boundary_pair, sort_single_0]
    decide

/-- Claim C2 (amended): GetMaxReplicaCountAndDeleteSlots implements the
specified ascending scan whenever the boundary cannot overflow int32
(d + number of reservations at most MaxInt32); unconditionally the
consumed set is a subset of the reservation set and the active ordinal
set is Ico 0 boundary minus the consumed set; and on d = 3, R = 2,4 it
returns boundary 4, consumed 2, and active set 0,1,3. -/
theorem C2_boundary_scan :
    (∀ (d : ℤ) (R : Finset ℤ),
      (-2147483648 ≤ d → d + R.card ≤ 2147483647 →
        GetMaxReplicaCountAndDeleteSlots d R =
          resolveBoundaryAndConsumedSpec d R (R.sort (· ≤ ·))) ∧
      (GetMaxReplicaCountAndDeleteSlots d R).2 ⊆ R ∧
      GetPodOrdinalsFromReplicasAndDeleteSlots d R =
        Finset.Ico 0 (GetMaxReplicaCountAndDeleteSlots d R).1 \
          (GetMaxReplicaCountAndDeleteSlots d R).2) ∧
    GetMaxReplicaCountAndDeleteSlots 3 {2, 4} = (4, {2}) ∧
    GetPodOrdinalsFromReplicasAndDeleteSlots 3 {2, 4} = {0, 1, 3} := by
  refine ⟨fun d R => ⟨?_, ?_, ?_⟩, scenarioB_pair, scenarioB_active⟩
  · intro h1 h2
    rw [GetMax_eq_ideal d R h1 h2, resolveSpec_eq]
  · rw [GetMax_eq]
    exact Finset.sdiff_subset
  · exact (Finset.sdiff_eq_filter _ _).symm

/-- Witness for the amended C2's refinement conjunct at the worked
example. -/
theorem C2_witness :
    GetMaxReplicaCountAndDeleteSlots 3 {2, 4} =
      resolveBoundaryAndConsumedSpec 3 {2, 4} (({2, 4} : Finset ℤ).sort (· ≤ ·)) :=
  (C2_boundary_scan.1 3 {2, 4}).1 (by norm_num) (by decide)

/-- Counterexample for C3 as stated: at currentReplicas = MinInt32 and
targetReplicas = 1 (a growth request, c < t), the int32 subtraction
targetReplicas - currentReplicas wraps negative, the loop body never runs
and the program returns the empty collection instead of t - c ordinals. -/
theorem C3_counterexample :
    (-2147483648 : ℤ) < 1 ∧
    CalculateScaleOutPodOrdinalFromSlots (-2147483648) 1 ∅ 5 = some [] ∧
    ¬(([] : List ℤ).length = ((1 : ℤ) - (-2147483648)).toNat) := by
  refine ⟨by norm_num, ?_, by decide⟩
  have hmax : GetMaxPodOrdinalFromSlots (-2147483648) ∅ = -1 := by
    unfold GetMaxPodOrdinalFromSlots GetPodOrdinalsFromReplicasAndDeleteSlots
      GetMaxReplicaCountAndDeleteSlots
    rw [Finset.sort_empty]
    decide
  unfold CalculateScaleOutPodOrdinalFromSlots
  rw [if_neg (by norm_num), hmax]
  decide

/-- Claim C3 (amended): scale-out returns the empty collection when not
growing (under any iteration budget); when growing, provided neither the
needed count t - c nor the candidates can overflow int32
(t - c + number of slots at most MaxInt32, and the current maximum pod
ordinal plus that amount at most MaxInt32), the loop finishes within
(t - c) + number of slots iterations and returns exactly t - c distinct
ordinals in strictly ascending assignment order, each above the current
maximum pod ordinal and none reserved; and scale-out from 3 to 5 under
reservations 2,4 yields 5,6. -/
theorem C3_scale_out :
    (∀ (c t : ℤ) (slots : Finset ℤ) (fuel : Nat),
      t ≤ c → CalculateScaleOutPodOrdinalFromSlots c t slots fuel = some []) ∧
    (∀ (c t : ℤ) (slots : Finset ℤ),
      c < t →
      t - c + slots.card ≤ 2147483647 →
      GetMaxPodOrdinalFromSlots c slots + (t - c) + slots.card ≤ 2147483647 →
      ∃ l, CalculateScaleOutPodOrdinalFromSlots c t slots ((t - c + slots.card).toNat)
          = some l ∧
        l.length = (t - c).toNat ∧
        List.Sorted (· < ·) l ∧
        ∀ x ∈ l, GetMaxPodOrdinalFromSlots c slots < x ∧ x ∉ slots) ∧
    CalculateScaleOutPodOrdinalFromSlots 3 5 {2, 4} 4 = some [5, 6] := by
  refine ⟨?_, ?_, scenarioC_scaleOut⟩
  · intro c t slots fuel h
    unfold CalculateScaleOutPodOrdinalFromSlots
    rw [if_pos (by omega)]
  · intro c t slots h hA hB
    have hM1 : -1 ≤ GetMaxPodOrdinalFromSlots c slots :=
      neg_one_le_GetMaxPodOrdinalFromSlots c slots
    have hw : wrap32 (t - c) = t - c := wrap32_eq_self (by omega) (by omega)
    have hfc : ((slots.filter
        (fun y => GetMaxPodOrdinalFromSlots c slots + 1 ≤ y)).card : ℤ) ≤
        (slots.card : ℤ) := by
      exact_mod_cast Finset.card_le_card (Finset.filter_subset _ _)
    refine ⟨scaleOutLoop slots (t - c).toNat (GetMaxPodOrdinalFromSlots c slots + 1),
      ?_, ?_, ?_, ?_⟩
    · unfold CalculateScaleOutPodOrdinalFromSlots
      rw [if_neg (by omega), hw]
      have hbr := scaleOutLoopW_bridge slots (GetMaxPodOrdinalFromSlots c slots) (t - c)
        ((t - c).toNat +
          (slots.filter (fun y => GetMaxPodOrdinalFromSlots c slots + 1 ≤ y)).card)
        (t - c).toNat 1 [] ((t - c + slots.card).toNat)
        le_rfl le_rfl (by simp; omega) (by simp) (by omega)
        (by omega) (by omega) (by omega)
      simpa using hbr
    · exact (scaleOutLoop_spec slots _ _).1
    · exact (scaleOutLoop_spec slots _ _).2.1
    · intro x hx
      have hx1 := (scaleOutLoop_spec slots (t - c).toNat
        (GetMaxPodOrdinalFromSlots c slots + 1)).2.2 x hx
      exact ⟨by omega, hx1.2.1⟩

/-- Witness for the amended C3 at c = 3, t = 5, R as in the worked
example. -/
theorem C3_witness :
    ∃ l, CalculateScaleOutPodOrdinalFromSlots 3 5 {2, 4}
        (((5 : ℤ) - 3 + ({2, 4} : Finset ℤ).card).toNat) = some l ∧
      l.length = ((5 : ℤ) - 3).toNat ∧
      List.Sorted (· < ·) l ∧
      ∀ x ∈ l, GetMaxPodOrdinalFromSlots 3 {2, 4} < x ∧ x ∉ ({2, 4} : Finset ℤ) :=
  C3_scale_out.2.1 3 5 {2, 4} (by norm_num) (by decide)
    (by rw [scenarioC_maxOrdinal]; decide)

/-- Counterexample for C4 as stated: with reservation 0 the boundary at
d = 2147483646 is MaxInt32, but at d = 2147483647 the increment wraps to
MinInt32, so the boundary is not monotone in d. -/
theorem C4_counterexample :
    (0 : ℤ) ≤ 2147483646 ∧ (2147483646 : ℤ) ≤ 2147483647 ∧
    (GetMaxReplicaCountAndDeleteSlots 2147483646 {0}).1 = 2147483647 ∧
    (GetMaxReplicaCountAndDeleteSlots 2147483647 {0}).1 = -2147483648 ∧
    ¬((GetMaxReplicaCountAndDeleteSlots 2147483646 {0}).1 ≤
      (GetMaxReplicaCountAndDeleteSlots 2147483647 {0}).1) := by
  rw [wrap_boundary_pair, wrap_boundary_pair_pred]
  refine ⟨by norm_num, by norm_num, rfl, rfl, by norm_num⟩

/-- Claim C4 (amended): for fixed R the boundary is non-decreasing in the
desired cardinality, provided the larger cardinality cannot overflow the
int32 boundary (d2 + number of reservations at most MaxInt32). -/
theorem C4_boundary_monotone (d1 d2 : ℤ) (R : Finset ℤ) (h0 : 0 ≤ d1) (h : d1 ≤ d2)
    (hB : d2 + R.card ≤ 2147483647) :
    (GetMaxReplicaCountAndDeleteSlots d1 R).1 ≤ (GetMaxReplicaCountAndDeleteSlots d2 R).1 := by
  rw [GetMax_eq_ideal d1 R (by omega) (by omega), GetMax_eq_ideal d2 R (by omega) hB]
  exact scanB_mono _ d1 d2 h

/-- Witness for the amended C4 at d1 = 2, d2 = 3. -/
theorem C4_witness :
    (GetMaxReplicaCountAndDeleteSlots 2 {2, 4}).1 ≤ (GetMaxReplicaCountAndDeleteSlots 3 {2, 4}).1 :=
  C4_boundary_monotone 2 3 {2, 4} (by norm_num) (by norm_num) (by decide)

/-- Counterexample for C5 as stated: at d = 2147483646 with reservations
0, 1 and 5, consuming 1 wraps the boundary to MinInt32; then r = 1 is a
reservation at or above the returned boundary, yet it IS in the consumed
set. -/
theorem C5_counterexample :
    (0 : ℤ) ≤ 2147483646 ∧ (1 : ℤ) ∈ ({0, 1, 5} : Finset ℤ) ∧
    GetMaxReplicaCountAndDeleteSlots 2147483646 {0, 1, 5} = (-2147483648, {0, 1}) ∧
    (GetMaxReplicaCountAndDeleteSlots 2147483646 {0, 1, 5}).1 ≤ 1 ∧
    (1 : ℤ) ∈ (GetMaxReplicaCountAndDeleteSlots 2147483646 {0, 1, 5}).2 := by
  have hp : GetMaxReplicaCountAndDeleteSlots 2147483646 {0, 1, 5} = (-2147483648, {0, 1}) := by
    unfold GetMaxReplicaCountAndDeleteSlots
    rw [sort_triple_015]
    decide
  rw [hp]
  refine ⟨by norm_num, by decide, rfl, by norm_num, by decide⟩

/-- Claim C5 (amended): provided the boundary cannot overflow int32
(d + number of reservations at most MaxInt32), a reservation at or above
the returned boundary is not consumed, and erasing it changes neither the
boundary-and-consumed pair nor the active ordinal set. -/
theorem C5_latent_dormancy (d : ℤ) (R : Finset ℤ) (r : ℤ) (hd : 0 ≤ d) (hr : r ∈ R)
    (hB : d + R.card ≤ 2147483647)
    (hge : (GetMaxReplicaCountAndDeleteSlots d R).1 ≤ r) :
    r ∉ (GetMaxReplicaCountAndDeleteSlots d R).2 ∧
    GetMaxReplicaCountAndDeleteSlots d (R.erase r) = GetMaxReplicaCountAndDeleteSlots d R ∧
    GetPodOrdinalsFromReplicasAndDeleteSlots d (R.erase r) =
      GetPodOrdinalsFromReplicasAndDeleteSlots d R := by
  obtain ⟨l1, l2, happ, hsc1, hdr1, hsc, hdr, hb1, hb2⟩ :=
    scan_split (R.sort (· ≤ ·)) (Finset.sort_sorted_lt R) d
  have hnd : (l1 ++ l2).Nodup := happ ▸ R.sort_nodup (· ≤ ·)
  have hnd2 : l2.Nodup := (List.nodup_append.mp hnd).2.1
  have hdisj := (List.nodup_append.mp hnd).2.2
  have hpair := GetMax_eq_ideal d R (by omega) hB
  rw [hsc, hdr, sdiff_toFinset_right R l1 l2 happ] at hpair
  rw [hpair] at hge ⊢
  have hrl : r ∈ l1 ++ l2 := by
    rw [← happ]
    exact (Finset.mem_sort (α := ℤ) (· ≤ ·)).mpr hr
  have hrl2 : r ∈ l2 := by
    rcases List.mem_append.mp hrl with h | h
    · exact absurd (hb1 r h) (by simp only at hge; omega)
    · exact h
  have hrnotl1 : r ∉ l1 := fun hc => hdisj hc hrl2
  refine ⟨by simpa [List.mem_toFinset] using hrnotl1, ?_, ?_⟩
  · -- the erased reservation set sorts to l1 ++ l2.erase r
    have hsub : List.Sublist (l1 ++ l2.erase r) (l1 ++ l2) :=
      (List.append_sublist_append_left l1).mpr (List.erase_sublist r l2)
    have hsorted : List.Sorted (· < ·) (l1 ++ l2.erase r) :=
      List.Pairwise.sublist hsub (happ ▸ Finset.sort_sorted_lt R)
    have hmemr : ∀ x, x ∈ l2.erase r ↔ x ≠ r ∧ x ∈ l2 := fun x => hnd2.mem_erase_iff
    have htf : (l1 ++ l2.erase r).toFinset = R.erase r := by
      ext x
      have hxR : x ∈ R ↔ x ∈ l1 ∨ x ∈ l2 := by
        rw [← Finset.mem_sort (α := ℤ) (· ≤ ·), happ]
        simp
      have hxl1 : x ∈ l1 → x ≠ r := fun h1 he => hrnotl1 (he ▸ h1)
      simp only [List.mem_toFinset, List.mem_append, Finset.mem_erase, hxR, hmemr x]
      tauto
    have hE : (R.erase r).sort (· ≤ ·) = l1 ++ l2.erase r :=
      sort_eq_of_sorted _ _ hsorted htf
    have hfroz := scan_frozen (l2.erase r) (d + l1.length)
      (fun x hx => hb2 x (List.mem_of_mem_erase hx))
    have hcardE : (R.erase r).card ≤ R.card :=
      Finset.card_le_card (Finset.erase_subset _ _)
    have hpairE := GetMax_eq_ideal d (R.erase r) (by omega) (by omega)
    rw [hE, scanB_append, droppedSlots_append, hsc1, hdr1, hfroz.1, hfroz.2,
      List.nil_append] at hpairE
    have hconsE : R.erase r \ (l2.erase r).toFinset = l1.toFinset := by
      ext x
      have hxR : x ∈ R ↔ x ∈ l1 ∨ x ∈ l2 := by
        rw [← Finset.mem_sort (α := ℤ) (· ≤ ·), happ]
        simp
      have hxl1 : x ∈ l1 → x ∉ l2 := fun h1 h2 => hdisj h1 h2
      simp only [Finset.mem_sdiff, Finset.mem_erase, List.mem_toFinset, hxR, hmemr x]
      constructor
      · rintro ⟨⟨hne, h1 | h2⟩, hno⟩
        · exact h1
        · exact absurd ⟨hne, h2⟩ hno
      · intro h1
        exact ⟨⟨hxl1 h1 ∘ fun he => he ▸ hrl2, Or.inl h1⟩, fun hc => hxl1 h1 hc.2⟩
    rw [hconsE] at hpairE
    rw [hpairE]
  · -- equal pairs give equal active sets
    have hEq : GetMaxReplicaCountAndDeleteSlots d (R.erase r) =
        GetMaxReplicaCountAndDeleteSlots d R := by
      obtain ⟨l1x, l2x, happx, hsc1x, hdr1x, hscx, hdrx, hb1x, hb2x⟩ :=
        scan_split ((R.erase r).sort (· ≤ ·)) (Finset.sort_sorted_lt (R.erase r)) d
      -- reuse the second conjunct argument: recompute as above
      have hsub : List.Sublist (l1 ++ l2.erase r) (l1 ++ l2) :=
        (List.append_sublist_append_left l1).mpr (List.erase_sublist r l2)
      have hsorted : List.Sorted (· < ·) (l1 ++ l2.erase r) :=
        List.Pairwise.sublist hsub (happ ▸ Finset.sort_sorted_lt R)
      have hmemr : ∀ x, x ∈ l2.erase r ↔ x ≠ r ∧ x ∈ l2 := fun x => hnd2.mem_erase_iff
      have htf : (l1 ++ l2.erase r).toFinset = R.erase r := by
        ext x
        have hxR : x ∈ R ↔ x ∈ l1 ∨ x ∈ l2 := by
          rw [← Finset.mem_sort (α := ℤ) (· ≤ ·), happ]
          simp
        have hxl1 : x ∈ l1 → x ≠ r := fun h1 he => hrnotl1 (he ▸ h1)
        simp only [List.mem_toFinset, List.mem_append, Finset.mem_erase, hxR, hmemr x]
        tauto
      have hE : (R.erase r).sort (· ≤ ·) = l1 ++ l2.erase r :=
        sort_eq_of_sorted _ _ hsorted htf
      have hfroz := scan_frozen (l2.erase r) (d + l1.length)
        (fun x hx => hb2 x (List.mem_of_mem_erase hx))
      have hcardE : (R.erase r).card ≤ R.card :=
        Finset.card_le_card (Finset.erase_subset _ _)
      have hpairE := GetMax_eq_ideal d (R.erase r) (by omega) (by omega)
      rw [hE, scanB_append, droppedSlots_append, hsc1, hdr1, hfroz.1, hfroz.2,
        List.nil_append] at hpairE
      have hconsE : R.erase r \ (l2.erase r).toFinset = l1.toFinset := by
        ext x
        have hxR : x ∈ R ↔ x ∈ l1 ∨ x ∈ l2 := by
          rw [← Finset.mem_sort (α := ℤ) (· ≤ ·), happ]
          simp
        have hxl1 : x ∈ l1 → x ∉ l2 := fun h1 h2 => hdisj h1 h2
        simp only [Finset.mem_sdiff, Finset.mem_erase, List.mem_toFinset, hxR, hmemr x]
        constructor
        · rintro ⟨⟨hne, h1 | h2⟩, hno⟩
          · exact h1
          · exact absurd ⟨hne, h2⟩ hno
        · intro h1
          exact ⟨⟨hxl1 h1 ∘ fun he => he ▸ hrl2, Or.inl h1⟩, fun hc => hxl1 h1 hc.2⟩
      rw [hconsE] at hpairE
      rw [hpairE, hpair]
    unfold GetPodOrdinalsFromReplicasAndDeleteSlots
    rw [hEq]

/-- Witness for the amended C5 at d = 3, R = 2,4, r = 4 (the latent
reservation of the worked example). -/
theorem C5_witness :
    4 ∉ (GetMaxReplicaCountAndDeleteSlots 3 {2, 4}).2 ∧
    GetMaxReplicaCountAndDeleteSlots 3 (({2, 4} : Finset ℤ).erase 4) =
      GetMaxReplicaCountAndDeleteSlots 3 {2, 4} ∧
    GetPodOrdinalsFromReplicasAndDeleteSlots 3 (({2, 4} : Finset ℤ).erase 4) =
      GetPodOrdinalsFromReplicasAndDeleteSlots 3 {2, 4} :=
  C5_latent_dormancy 3 {2, 4} 4 (by norm_num) (by decide) (by decide)
    (by rw [scenarioB_pair])

/-- Counterexample for C6 as stated: at the negative desired cardinality
-1 with reservation set containing -2, GetMaxReplicaCountAndDeleteSlots
does not surface an InvalidArgument error: its error-monad view returns
ok, and the scan has even run to completion (the reservation was consumed
and the boundary grew from -1 to 0), so work is performed rather than the
input being rejected. -/
theorem C6_counterexample :
    (-1 : ℤ) < 0 ∧
    GetMaxReplicaCountAndDeleteSlotsE (-1) {(-2 : ℤ)} = Except.ok (0, {(-2 : ℤ)}) :=
  ⟨by norm_num, by unfold GetMaxReplicaCountAndDeleteSlotsE; rw [negative_input_pair]⟩

/-- Claim C6 (amended): the allocator performs no input validation and has
no error channel: a negative desired cardinality is processed by the
ordinary algorithm.  With non-negative reservations every reservation is
at or above the initial boundary, so the scan returns the cardinality
itself with nothing consumed (no increment executes, so no wrap occurs
either), the active set is empty, max is the -1 sentinel, min is the
MaxInt32 sentinel, and scale-out to the same cardinality is empty under
any iteration budget. -/
theorem C6_no_validation (d : ℤ) (R : Finset ℤ) (hd : d < 0) (hR : ∀ r ∈ R, 0 ≤ r) :
    GetMaxReplicaCountAndDeleteSlotsE d R = Except.ok (d, ∅) ∧
    GetPodOrdinalsFromReplicasAndDeleteSlots d R = ∅ ∧
    GetMaxPodOrdinalFromSlots d R = -1 ∧
    GetMinPodOrdinalFromSlots d R = 2147483647 ∧
    ∀ fuel : Nat, CalculateScaleOutPodOrdinalFromSlots d d R fuel = some [] := by
  have hfroz := scan_frozenW (R.sort (· ≤ ·)) d (fun x hx => by
    have : 0 ≤ x := hR x ((Finset.mem_sort (α := ℤ) (· ≤ ·)).mp hx)
    omega)
  have hpair : GetMaxReplicaCountAndDeleteSlots d R = (d, ∅) := by
    rw [GetMax_eq, hfroz.1, hfroz.2]
    rw [show (R.sort (· ≤ ·)).toFinset = R from Finset.sort_toFinset _ R]
    rw [Finset.sdiff_self]
  have hact : GetPodOrdinalsFromReplicasAndDeleteSlots d R = ∅ := by
    unfold GetPodOrdinalsFromReplicasAndDeleteSlots
    rw [hpair]
    show (Finset.Ico (0 : ℤ) d).filter (fun i => i ∉ (∅ : Finset ℤ)) = ∅
    rw [Finset.Ico_eq_empty (by omega), Finset.filter_empty]
  refine ⟨?_, hact, ?_, ?_, ?_⟩
  · unfold GetMaxReplicaCountAndDeleteSlotsE
    rw [hpair]
  · unfold GetMaxPodOrdinalFromSlots
    rw [hact]
    exact Finset.fold_empty
  · unfold GetMinPodOrdinalFromSlots
    rw [hact]
    exact Finset.fold_empty
  · intro fuel
    unfold CalculateScaleOutPodOrdinalFromSlots
    rw [if_pos (le_refl d)]

/-- Witness for the amended C6 at d = -1, R containing 2. -/
theorem C6_witness :
    GetMaxReplicaCountAndDeleteSlotsE (-1) {(2 : ℤ)} = Except.ok (-1, ∅) ∧
    GetPodOrdinalsFromReplicasAndDeleteSlots (-1) {(2 : ℤ)} = ∅ ∧
    GetMaxPodOrdinalFromSlots (-1) {(2 : ℤ)} = -1 ∧
    GetMinPodOrdinalFromSlots (-1) {(2 : ℤ)} = 2147483647 ∧
    CalculateScaleOutPodOrdinalFromSlots (-1) (-1) {(2 : ℤ)} 0 = some [] := by
  have h := C6_no_validation (-1) {(2 : ℤ)} (by norm_num) (by decide)
  exact ⟨h.1, h.2.1, h.2.2.1, h.2.2.2.1, h.2.2.2.2 0⟩

/-- Claim C7: GetDeleteSlots returns the empty set and surfaces no error
whenever the bag is nil, the well-known key is absent, or the stored value
does not decode as an integer array; the decode failure never reaches the
caller (the function has no error result at all). -/
theorem C7_read_failures_silent (set : MetaObject) (value : List Char) :
    (set.anns = none → GetDeleteSlots set = ∅) ∧
    (∀ a, set.anns = some a → annLookup DeleteSlotsAnn a = none →
      GetDeleteSlots set = ∅) ∧
    (∀ a, set.anns = some a → annLookup DeleteSlotsAnn a = some value →
      unmarshalIntList value = none → GetDeleteSlots set = ∅) := by
  refine ⟨?_, ?_, ?_⟩
  · intro h
    simp [GetDeleteSlots, h]
  · intro a ha hl
    simp [GetDeleteSlots, ha, hl]
  · intro a ha hl hu
    simp [GetDeleteSlots, ha, hl, hu]

/-- Witness for C7: a nil bag and a malformed stored value both read as
the empty set. -/
theorem C7_witness :
    GetDeleteSlots ⟨none⟩ = ∅ ∧
    GetDeleteSlots ⟨some [(DeleteSlotsAnn, ['x'])]⟩ = ∅ :=
  ⟨(C7_read_failures_silent ⟨none⟩ []).1 rfl,
   (C7_read_failures_silent ⟨some [(DeleteSlotsAnn, ['x'])]⟩ ['x']).2.2
     [(DeleteSlotsAnn, ['x'])] rfl (by decide) (by decide)⟩

/-- Claim C8: AddDeleteSlots is idempotent: a second identical call leaves
the identity object unchanged (hence the same stored reservation set), and
adding already-reserved ordinals is a no-op on the stored set. -/
theorem C8_add_idempotent (set : MetaObject) (S : Finset ℤ) :
    AddDeleteSlots (AddDeleteSlots set S) S = AddDeleteSlots set S ∧
    (S ⊆ GetDeleteSlots set →
      GetDeleteSlots (AddDeleteSlots set S) = GetDeleteSlots set) := by
  constructor
  · unfold AddDeleteSlots
    rw [GetDeleteSlots_SetDeleteSlots]
    have hT : GetDeleteSlots set ∪ S ∪ S = GetDeleteSlots set ∪ S := by
      rw [Finset.union_assoc, Finset.union_self]
    rw [hT, SetDeleteSlots_SetDeleteSlots]
  · intro hsub
    unfold AddDeleteSlots
    rw [GetDeleteSlots_SetDeleteSlots, Finset.union_eq_left.mpr hsub]

/-- Witness for C8 on a nil-bag object. -/
theorem C8_witness :
    AddDeleteSlots (AddDeleteSlots ⟨none⟩ {5}) {5} = AddDeleteSlots ⟨none⟩ {5} ∧
    GetDeleteSlots (AddDeleteSlots ⟨none⟩ ∅) = GetDeleteSlots ⟨none⟩ :=
  ⟨(C8_add_idempotent ⟨none⟩ {5}).1,
   (C8_add_idempotent ⟨none⟩ ∅).2 (Finset.empty_subset _)⟩

/-- Counterexample for C9 as stated: when the reservation set covers
every int32 value except 0, the wrapped candidates cycle through a space
with only one free ordinal, so a scale-out needing two ordinals is still
running after (t - c) + number of reservations iterations (and indeed
after any number): the claimed totality over every finite reservation set
fails. -/
theorem C9_counterexample :
    (3 : ℤ) < 5 ∧
    2 + ((Finset.Ico (-2147483648 : ℤ) 2147483648).erase 0).card = 4294967297 ∧
    CalculateScaleOutPodOrdinalFromSlots 3 5
      ((Finset.Ico (-2147483648 : ℤ) 2147483648).erase 0) 4294967297 = none := by
  refine ⟨by norm_num, ?_, ?_⟩
  · rw [Finset.card_erase_of_mem (Finset.mem_Ico.mpr (by norm_num)), Int.card_Ico]
    decide
  · unfold CalculateScaleOutPodOrdinalFromSlots
    rw [if_neg (by norm_num), show wrap32 ((5 : ℤ) - 3) = 2 from by decide]
    exact scaleOutLoopW_starved _ 4294967297 1 [] (by simp) (by simp)

/-- Claim C9 (amended): under no-overflow bounds the allocator is total:
the boundary scan visits the ascending member list once (its length is
the set cardinality) and, when d + number of reservations stays at most
MaxInt32, grows the boundary by at most that cardinality; and when
neither the needed count nor the candidates can overflow int32, the
scale-out loop terminates within (t - c) + number of slots iterations
with a complete answer of exactly t - c ordinals. -/
theorem C9_totality (d : ℤ) (R : Finset ℤ) (c t : ℤ) (slots : Finset ℤ)
    (hd : -2147483648 ≤ d) (hdR : d + R.card ≤ 2147483647) (h : c < t)
    (h1 : t - c + slots.card ≤ 2147483647)
    (h2 : GetMaxPodOrdinalFromSlots c slots + (t - c) + slots.card ≤ 2147483647) :
    (R.sort (· ≤ ·)).length = R.card ∧
    (GetMaxReplicaCountAndDeleteSlots d R).1 ≤ d + R.card ∧
    ∃ l, CalculateScaleOutPodOrdinalFromSlots c t slots ((t - c + slots.card).toNat)
        = some l ∧ l.length = (t - c).toNat := by
  refine ⟨Finset.length_sort _, ?_, ?_⟩
  · rw [GetMax_eq_ideal d R hd hdR]
    have hbd := scanB_le_add (R.sort (· ≤ ·)) d
    rw [Finset.length_sort] at hbd
    exact hbd
  · have hM1 : -1 ≤ GetMaxPodOrdinalFromSlots c slots :=
      neg_one_le_GetMaxPodOrdinalFromSlots c slots
    have hw : wrap32 (t - c) = t - c := wrap32_eq_self (by omega) (by omega)
    have hfc : ((slots.filter
        (fun y => GetMaxPodOrdinalFromSlots c slots + 1 ≤ y)).card : ℤ) ≤
        (slots.card : ℤ) := by
      exact_mod_cast Finset.card_le_card (Finset.filter_subset _ _)
    refine ⟨scaleOutLoop slots (t - c).toNat (GetMaxPodOrdinalFromSlots c slots + 1),
      ?_, (scaleOutLoop_spec slots _ _).1⟩
    unfold CalculateScaleOutPodOrdinalFromSlots
    rw [if_neg (by omega), hw]
    have hbr := scaleOutLoopW_bridge slots (GetMaxPodOrdinalFromSlots c slots) (t - c)
      ((t - c).toNat +
        (slots.filter (fun y => GetMaxPodOrdinalFromSlots c slots + 1 ≤ y)).card)
      (t - c).toNat 1 [] ((t - c + slots.card).toNat)
      le_rfl le_rfl (by simp; omega) (by simp) (by omega)
      (by omega) (by omega) (by omega)
    simpa using hbr

/-- Witness for the amended C9 at the worked example. -/
theorem C9_witness :
    (({2, 4} : Finset ℤ).sort (· ≤ ·)).length = ({2, 4} : Finset ℤ).card ∧
    (GetMaxReplicaCountAndDeleteSlots 3 {2, 4}).1 ≤ 3 + ({2, 4} : Finset ℤ).card ∧
    ∃ l, CalculateScaleOutPodOrdinalFromSlots 3 5 {2, 4}
        (((5 : ℤ) - 3 + ({2, 4} : Finset ℤ).card).toNat) = some l ∧
      l.length = ((5 : ℤ) - 3).toNat :=
  C9_totality 3 {2, 4} 3 5 {2, 4} (by norm_num) (by decide) (by norm_num) (by decide)
    (by rw [scenarioC_maxOrdinal]; decide)

/-- Claim C10: write-then-read round trip: SetDeleteSlots followed by
GetDeleteSlots returns exactly the written set, and writing the empty set
removes the well-known key, so absence and emptiness are indistinguishable
through the accessor. -/
theorem C10_round_trip (set : MetaObject) (S : Finset ℤ)
    (_hS : ∀ x ∈ S, -2147483648 ≤ x ∧ x < 2147483648) :
    GetDeleteSlots (SetDeleteSlots set S) = S ∧
    (S = ∅ → annValue (SetDeleteSlots set S) = none) := by
  refine ⟨GetDeleteSlots_SetDeleteSlots set S, ?_⟩
  rintro rfl
  exact annValue_SetDeleteSlots_empty set

/-- Witness for C10 with a two-element set including a negative ordinal,
and the empty-set key removal. -/
theorem C10_witness :
    (∀ x ∈ ({5, -3} : Finset ℤ), -2147483648 ≤ x ∧ x < 2147483648) ∧
    GetDeleteSlots (SetDeleteSlots ⟨none⟩ {5, -3}) = {5, -3} ∧
    annValue (SetDeleteSlots ⟨none⟩ ∅) = none :=
  ⟨by decide,
   (C10_round_trip ⟨none⟩ {5, -3} (by decide)).1,
   (C10_round_trip ⟨none⟩ ∅ (by decide)).2 rfl⟩
